import Mathlib

/-!
Verification of the trie-building program (`src/main.rs`).

The program is embedded shallowly:

* Rust `struct Node { sym: Option<char>, children: Vec<Node> }` becomes the
  nested inductive `Node` below; `Vec` becomes `List`.
* `Node::from_string` iterates a `Chars` iterator; here the string's character
  list is consumed directly (`Node._from_iter`).
* `Node::id` formats the node's memory address (`self as *const Node as usize`)
  as `"node_{addr}"`.  The embedding has no memory, so the address is an
  explicit `Nat` argument (`nodeId`); the node's content is never consulted,
  exactly as in the source.
* `_merge_node` is recursive through a `HashMap` grouping of the children.
  The embedding (`mergeNodeF`) is fueled: every call consumes one unit of
  fuel, `.error false` signals fuel exhaustion (an artifact of the embedding,
  proved unreachable for fuel >= 3 * (sizeN n + sizeN m)), and `.error true`
  models the `assert_eq!(n.sym, m.sym)` panic.  The `HashMap` iteration order
  is unspecified in Rust; the embedding determinizes it to first-insertion
  order of the keys (`groupBySym`), which only fixes the order, not the
  contents, of the child groups.
* `Node::print_dot` / `Trie::print_dot` emit DOT statements.  In the source a
  node is named by its address; distinct live nodes have distinct addresses
  and a node's address is fixed during one serialization pass.  The embedding
  names a node by its path from the forest root (`List Nat`), which has
  exactly these two properties.
-/

/-- Rust `struct Node { sym: Option<char>, children: Vec<Node> }`. -/
inductive Node : Type where
  | mk (sym : Option Char) (children : List Node) : Node
deriving Repr

/-- Projection for the `sym` field of `Node`. -/
def Node.sym : Node → Option Char
  | .mk s _ => s

/-- Projection for the `children` field of `Node`. -/
def Node.children : Node → List Node
  | .mk _ cs => cs

@[simp] theorem Node.sym_mk (s : Option Char) (cs : List Node) :
    (Node.mk s cs).sym = s := rfl

@[simp] theorem Node.children_mk (s : Option Char) (cs : List Node) :
    (Node.mk s cs).children = cs := rfl

/-- Rust `Node::new_empty`. -/
def Node.new_empty (sym : Option Char) : Node := Node.mk sym []

/-- Rust `Node::_from_iter`, with the `Chars` iterator replaced by the list of
remaining characters. -/
def Node._from_iter : List Char → Node
  | [] => Node.new_empty none
  | c :: rest => Node.mk (some c) [Node._from_iter rest]

/-- Rust `Node::from_string`. -/
def Node.from_string (s : String) : Node := Node._from_iter s.data

/-- Rust `Node::id`: `format!("node_{}", (self as *const Node) as usize)`.
The address is the only information about `self` that the source consults, so
the embedding takes the address as an explicit argument. -/
def nodeId (addr : Nat) : String := "node_" ++ Nat.repr addr

mutual

/-- Size of a node: one plus the sizes of all descendants (used to bound the
fuel of the merge recursion). -/
def sizeN : Node → Nat
  | .mk _ cs => 1 + sizeNL cs

/-- Total size of a list of nodes. -/
def sizeNL : List Node → Nat
  | [] => 0
  | c :: cs => sizeN c + sizeNL cs

end

@[simp] theorem sizeN_mk (s : Option Char) (cs : List Node) :
    sizeN (Node.mk s cs) = 1 + sizeNL cs := rfl

@[simp] theorem sizeNL_nil : sizeNL [] = 0 := rfl

@[simp] theorem sizeNL_cons (c : Node) (cs : List Node) :
    sizeNL (c :: cs) = sizeN c + sizeNL cs := rfl

theorem sizeN_pos (n : Node) : 1 ≤ sizeN n := by
  cases n with
  | mk s cs => simp [sizeN]

theorem sizeN_le_sizeNL_of_mem {x : Node} {l : List Node} (h : x ∈ l) :
    sizeN x ≤ sizeNL l := by
  induction l with
  | nil => cases h
  | cons y ys ih =>
    rcases List.mem_cons.mp h with h | h
    · rw [h]
      simp only [sizeNL_cons]
      omega
    · have := ih h
      simp only [sizeNL_cons]
      omega

theorem sizeNL_append (l1 l2 : List Node) :
    sizeNL (l1 ++ l2) = sizeNL l1 + sizeNL l2 := by
  induction l1 with
  | nil => simp
  | cons x xs ih =>
    simp only [List.cons_append, sizeNL_cons, ih]
    omega

/-- One step of the `HashMap` update in `_merge_node`: push node `x` (whose
symbol is `c`) onto the group for key `c`, creating the group if the key is
new.  New keys are appended at the end, determinizing the map's iteration
order to first-insertion order. -/
def addToGroups (c : Char) (x : Node) : List (Char × List Node) → List (Char × List Node)
  | [] => [(c, [x])]
  | (c', xs) :: rest =>
      if c = c' then (c', xs ++ [x]) :: rest else (c', xs) :: addToGroups c x rest

/-- The grouping loop of `_merge_node`: walk the concatenated children,
skipping sentinels (`sym == None`) and grouping the rest by symbol. -/
def groupChildren : List Node → List (Char × List Node) → List (Char × List Node)
  | [], gs => gs
  | x :: xs, gs =>
      groupChildren xs (match x.sym with
        | some c => addToGroups c x gs
        | none => gs)

/-- Rust `children_by_sym` computed from the concatenated children. -/
def groupBySym (l : List Node) : List (Char × List Node) := groupChildren l []

/-- Result type of the fueled merge: `.ok r` is a normal return, `.error true`
is the `assert_eq!(n.sym, m.sym)` panic, `.error false` is fuel exhaustion
(an artifact of the embedding, unreachable at sufficient fuel). -/
abbrev MRes := Except Bool Node

/-- Result type of the fueled group loop. -/
abbrev MResL := Except Bool (List Node)

mutual

/-- Rust `_merge_node`, fueled.  Asserts the symbols agree, groups the
concatenated children by symbol (dropping sentinels), folds every group into
a single node starting from `Node::new_empty(Some(sym))`, and returns the
node carrying the shared symbol with one child per group. -/
def mergeNodeF : Nat → Node → Node → MRes
  | 0, _, _ => .error false
  | fuel + 1, n, m =>
    if n.sym = m.sym then
      match mergeGroupsF fuel (groupBySym (n.children ++ m.children)) with
      | .ok cs => .ok (Node.mk n.sym cs)
      | .error e => .error e
    else .error true

/-- The per-group loop of `_merge_node`: fold each group into one node. -/
def mergeGroupsF : Nat → List (Char × List Node) → MResL
  | 0, _ => .error false
  | _ + 1, [] => .ok []
  | fuel + 1, (c, nds) :: rest =>
    match mergeFoldF fuel (Node.new_empty (some c)) nds with
    | .ok nd =>
      match mergeGroupsF fuel rest with
      | .ok cs => .ok (nd :: cs)
      | .error e => .error e
    | .error e => .error e

/-- The accumulator fold inside a group: `acc = _merge_node(acc, n)`. -/
def mergeFoldF : Nat → Node → List Node → MRes
  | 0, _, _ => .error false
  | _ + 1, acc, [] => .ok acc
  | fuel + 1, acc, x :: rest =>
    match mergeNodeF fuel acc x with
    | .ok acc2 => mergeFoldF fuel acc2 rest
    | .error e => .error e

end

/-- Total interface to `_merge_node`, run at provably sufficient fuel.
Meaningful whenever `n.sym = m.sym` (otherwise the source panics and the
default branch here is dead code). -/
def mergeNode (n m : Node) : Node :=
  match mergeNodeF (3 * (sizeN n + sizeN m)) n m with
  | .ok r => r
  | .error _ => Node.new_empty n.sym

/-- Rust `struct Trie { children: Vec<Node> }`. -/
structure Trie where
  children : List Node

/-- Rust `Trie::new`. -/
def Trie.new : Trie := ⟨[]⟩

/-- Root update of `Trie::insert`: remove the first root whose symbol equals
`m.sym` and push its merge with `m` at the end, or push `m` if no root
matches.  This is exactly `position` / `remove(i)` / `push` from the source. -/
def insertRoots : List Node → Node → List Node
  | [], m => [m]
  | n :: rest, m =>
      if n.sym = m.sym then rest ++ [mergeNode n m]
      else n :: insertRoots rest m

/-- Rust `Trie::insert`. -/
def Trie.insert (t : Trie) (m : Node) : Trie := ⟨insertRoots t.children m⟩

/-- Fold a list of strings into a trie, as the main loop does (without the
line normalization, which `buildTrieNorm` adds). -/
def buildTrie (ss : List String) : Trie :=
  ss.foldl (fun t s => t.insert (Node.from_string s)) Trie.new

/-- ASCII uppercasing of one character.  Rust `to_uppercase` is
Unicode-aware; on the ASCII inputs of the claims the two agree. -/
def toUpperAscii (c : Char) : Char :=
  if 'a' ≤ c ∧ c ≤ 'z' then Char.ofNat (c.toNat - 32) else c

/-- The per-line normalization of `main`: `inbuf.trim().to_uppercase()`,
on the line's character list. -/
def normalizeChars (l : List Char) : List Char :=
  (((l.dropWhile Char.isWhitespace).reverse.dropWhile Char.isWhitespace).reverse).map
    toUpperAscii

/-- The whole `main` loop on a list of input lines (each given as its
character list): normalize each line, convert it to a chain, insert it. -/
def mainTrie (lines : List (List Char)) : Trie :=
  lines.foldl (fun t l => t.insert (Node._from_iter (normalizeChars l))) Trie.new

/-- One DOT statement emitted by `print_dot`.  A node's name in the source is
`"node_{address}"`; distinct live nodes have distinct addresses and a node
keeps its address during one serialization pass, so the embedding names a
node by its path from the forest root, which has exactly those properties.
Header and footer lines of `Trie::print_dot` are constant strings and are not
modelled. -/
inductive Stmt : Type where
  | decl (id : List Nat) (label : Char) : Stmt
  | edge (src : List Nat) (dst : List Nat) : Stmt
deriving Repr, DecidableEq

mutual

/-- Rust `Node::print_dot` for the node at path `p`: a sentinel prints
nothing; a real node prints its declaration and then walks its children. -/
def printDotN : List Nat → Node → List Stmt
  | _, .mk none _ => []
  | p, .mk (some c) cs => Stmt.decl p c :: printChildren p 0 cs

/-- The child loop of `Node::print_dot`: on the first sentinel child the loop
breaks (dropping all remaining siblings); otherwise it prints the edge to the
child and recurses into it. -/
def printChildren : List Nat → Nat → List Node → List Stmt
  | _, _, [] => []
  | p, i, nn :: rest =>
    if nn.sym = none then []
    else
      Stmt.edge p (p ++ [i]) :: (printDotN (p ++ [i]) nn ++ printChildren p (i + 1) rest)

end

/-- The root loop of `Trie::print_dot` (no break at the top level),
numbering the roots from `i`. -/
def printRoots : Nat → List Node → List Stmt
  | _, [] => []
  | i, n :: rest => printDotN [i] n ++ printRoots (i + 1) rest

/-- Rust `Trie::print_dot` without the constant header/footer lines. -/
def trieDot (t : Trie) : List Stmt := printRoots 0 t.children

mutual

/-- Modelled from the spec: the corrected skip-and-continue serializer of
design note §9 — skip only the sentinel child and keep iterating the
remaining siblings.  Used solely to compare against `printDotN`. -/
def printDotSkipN : List Nat → Node → List Stmt
  | _, .mk none _ => []
  | p, .mk (some c) cs => Stmt.decl p c :: printChildrenSkip p 0 cs

/-- Modelled from the spec: child loop of the skip-and-continue policy. -/
def printChildrenSkip : List Nat → Nat → List Node → List Stmt
  | _, _, [] => []
  | p, i, nn :: rest =>
    if nn.sym = none then printChildrenSkip p (i + 1) rest
    else
      Stmt.edge p (p ++ [i]) ::
        (printDotSkipN (p ++ [i]) nn ++ printChildrenSkip p (i + 1) rest)

end

/-- Skip-and-continue variant of the root loop. -/
def printRootsSkip : Nat → List Node → List Stmt
  | _, [] => []
  | i, n :: rest => printDotSkipN [i] n ++ printRootsSkip (i + 1) rest

/-- Skip-and-continue variant of `Trie::print_dot`. -/
def trieDotSkip (t : Trie) : List Stmt := printRootsSkip 0 t.children

mutual

/-- Symbol-paths of a node: the symbol strings of every downward walk from
this node to a reachable real node.  A sentinel contributes no paths (in all
program-reachable trees a sentinel is a leaf). -/
def pathsList : Node → List (List Char)
  | .mk none _ => []
  | .mk (some c) cs => [c] :: (pathsListL cs).map (fun p => c :: p)

/-- Concatenated symbol-paths of a list of nodes. -/
def pathsListL : List Node → List (List Char)
  | [] => []
  | x :: xs => pathsList x ++ pathsListL xs

end

/-- Symbol-paths reachable in a whole forest. -/
def pathsTrie (t : Trie) : List (List Char) := pathsListL t.children

mutual

/-- Whether a sentinel (`sym = None`) occurs anywhere in the subtree,
the root included. -/
def hasSentinel : Node → Bool
  | .mk none _ => true
  | .mk (some _) cs => hasSentinelL cs

/-- Whether any node of the list contains a sentinel. -/
def hasSentinelL : List Node → Bool
  | [] => false
  | x :: xs => hasSentinel x || hasSentinelL xs

end

/-- Canonical shape of every tree produced by `_merge_node`: all children
carry real (pairwise-distinct) symbols and are themselves canonical.  The
node's own symbol is unconstrained. -/
inductive Canon : Node → Prop where
  | mk {s : Option Char} {cs : List Node} :
      (∀ c ∈ cs, c.sym ≠ none) →
      (cs.map Node.sym).Nodup →
      (∀ c ∈ cs, Canon c) →
      Canon (Node.mk s cs)

/-- Hereditary only-child-sentinel invariant: whenever some child is a
sentinel, it is the only child; and the same holds in every subtree. -/
inductive SOC : Node → Prop where
  | mk {s : Option Char} {cs : List Node} :
      ((∃ x ∈ cs, x.sym = none) → cs.length = 1) →
      (∀ x ∈ cs, SOC x) →
      SOC (Node.mk s cs)

/-- Chain shape of §4.1, stated from the spec's words: one real node per
character, in order, each with a single child, ending in a childless
sentinel; the empty string is the lone sentinel. -/
def ChainShape : List Char → Node → Prop
  | [], n => n = Node.mk none []
  | c :: rest, n => n.sym = some c ∧ ∃ m, n.children = [m] ∧ ChainShape rest m

/-- Declarations contained in a DOT output. -/
def declsOf (out : List Stmt) : List (List Nat × Char) :=
  out.filterMap fun s =>
    match s with
    | .decl p c => some (p, c)
    | .edge _ _ => none

/-- Edges contained in a DOT output. -/
def edgesOf (out : List Stmt) : List (List Nat × List Nat) :=
  out.filterMap fun s =>
    match s with
    | .decl _ _ => none
    | .edge a b => some (a, b)

/-- Label attached to a node id by the output's declarations, if any. -/
def labelOf (out : List Stmt) (p : List Nat) : Option Char :=
  out.findSome? fun s =>
    match s with
    | .decl q c => if q = p then some c else none
    | .edge _ _ => none

/-- Edge list of an output with both endpoints replaced by their declared
labels. -/
def edgeLabels (out : List Stmt) : List (Option Char × Option Char) :=
  (edgesOf out).map fun e => (labelOf out e.1, labelOf out e.2)

/-- Total size of the nodes stored in a group list. -/
def totalG : List (Char × List Node) → Nat
  | [] => 0
  | g :: gs => sizeNL g.2 + totalG gs

@[simp] theorem totalG_nil : totalG [] = 0 := rfl

@[simp] theorem totalG_cons (g : Char × List Node) (gs : List (Char × List Node)) :
    totalG (g :: gs) = sizeNL g.2 + totalG gs := rfl

/-- Well-formedness of a group list: every group is nonempty and all its
members carry the group's key as symbol. -/
def GroupsWF (gs : List (Char × List Node)) : Prop :=
  ∀ g ∈ gs, g.2 ≠ [] ∧ ∀ x ∈ g.2, x.sym = some g.1

theorem addToGroups_totalG (c : Char) (x : Node) (gs : List (Char × List Node)) :
    totalG (addToGroups c x gs) = sizeN x + totalG gs := by
  induction gs with
  | nil => simp [addToGroups, sizeNL]
  | cons g rest ih =>
    obtain ⟨c', xs⟩ := g
    by_cases h : c = c'
    · simp [addToGroups, h, sizeNL_append]
      omega
    · simp [addToGroups, h, ih]
      omega

theorem addToGroups_wf {c : Char} {x : Node} {gs : List (Char × List Node)}
    (hgs : GroupsWF gs) (hx : x.sym = some c) : GroupsWF (addToGroups c x gs) := by
  induction gs with
  | nil =>
    intro g hg
    simp [addToGroups] at hg
    subst hg
    constructor
    · simp
    · intro y hy
      simp at hy
      subst hy
      exact hx
  | cons g0 rest ih =>
    obtain ⟨c', xs⟩ := g0
    have hg0 := hgs (c', xs) (List.mem_cons_self _ _)
    have hrest : GroupsWF rest := fun g hg => hgs g (List.mem_cons_of_mem _ hg)
    by_cases h : c = c'
    · intro g hg
      simp only [addToGroups, if_pos h] at hg
      rcases List.mem_cons.mp hg with hg | hg
      · subst hg
        constructor
        · simp
        · intro y hy
          rcases List.mem_append.mp hy with hy | hy
          · exact hg0.2 y hy
          · simp at hy
            subst hy
            rw [hx, h]
      · exact hrest g hg
    · intro g hg
      simp only [addToGroups, if_neg h] at hg
      rcases List.mem_cons.mp hg with hg | hg
      · subst hg; exact hg0
      · exact ih hrest g hg

theorem addToGroups_mem (c : Char) (x y : Node) (gs : List (Char × List Node)) :
    (∃ g ∈ addToGroups c x gs, y ∈ g.2) ↔ (∃ g ∈ gs, y ∈ g.2) ∨ y = x := by
  induction gs with
  | nil => simp [addToGroups]
  | cons g0 rest ih =>
    obtain ⟨c', xs⟩ := g0
    by_cases h : c = c'
    · simp only [addToGroups, if_pos h]
      constructor
      · intro ⟨g, hg, hy⟩
        rcases List.mem_cons.mp hg with hg | hg
        · subst hg
          rcases List.mem_append.mp hy with hy | hy
          · exact Or.inl ⟨(c', xs), List.mem_cons_self _ _, hy⟩
          · simp at hy; exact Or.inr hy
        · exact Or.inl ⟨g, List.mem_cons_of_mem _ hg, hy⟩
      · intro hcase
        rcases hcase with ⟨g, hg, hy⟩ | hy
        · rcases List.mem_cons.mp hg with hg | hg
          · subst hg
            exact ⟨(c', xs ++ [x]), List.mem_cons_self _ _, List.mem_append.mpr (Or.inl hy)⟩
          · exact ⟨g, List.mem_cons_of_mem _ hg, hy⟩
        · exact ⟨(c', xs ++ [x]), List.mem_cons_self _ _, by simp [hy]⟩
    · simp only [addToGroups, if_neg h]
      constructor
      · intro ⟨g, hg, hy⟩
        rcases List.mem_cons.mp hg with hg | hg
        · subst hg
          exact Or.inl ⟨(c', xs), List.mem_cons_self _ _, hy⟩
        · rcases ih.mp ⟨g, hg, hy⟩ with hc | hc
          · obtain ⟨g', hg', hy'⟩ := hc
            exact Or.inl ⟨g', List.mem_cons_of_mem _ hg', hy'⟩
          · exact Or.inr hc
      · intro hcase
        rcases hcase with ⟨g, hg, hy⟩ | hy
        · rcases List.mem_cons.mp hg with hg | hg
          · subst hg
            exact ⟨(c', xs), List.mem_cons_self _ _, hy⟩
          · obtain ⟨g', hg', hy'⟩ := ih.mpr (Or.inl ⟨g, hg, hy⟩)
            exact ⟨g', List.mem_cons_of_mem _ hg', hy'⟩
        · obtain ⟨g', hg', hy'⟩ := ih.mpr (Or.inr hy)
          exact ⟨g', List.mem_cons_of_mem _ hg', hy'⟩

theorem addToGroups_keys (c : Char) (x : Node) (gs : List (Char × List Node)) :
    (addToGroups c x gs).map Prod.fst =
      if c ∈ gs.map Prod.fst then gs.map Prod.fst else gs.map Prod.fst ++ [c] := by
  induction gs with
  | nil => simp [addToGroups]
  | cons g0 rest ih =>
    obtain ⟨c', xs⟩ := g0
    by_cases h : c = c'
    · simp [addToGroups, h]
    · simp only [addToGroups, if_neg h, List.map_cons]
      rw [ih]
      by_cases hm : c ∈ rest.map Prod.fst
      · simp [hm, h]
      · simp [hm, h]

@[simp] theorem groupChildren_nil (gs : List (Char × List Node)) :
    groupChildren [] gs = gs := rfl

theorem groupChildren_cons (x : Node) (xs : List Node) (gs : List (Char × List Node)) :
    groupChildren (x :: xs) gs =
      groupChildren xs (match x.sym with
        | some c => addToGroups c x gs
        | none => gs) := rfl

theorem groupChildren_wf {l : List Node} {gs : List (Char × List Node)}
    (hgs : GroupsWF gs) : GroupsWF (groupChildren l gs) := by
  induction l generalizing gs with
  | nil => simpa using hgs
  | cons x xs ih =>
    rw [groupChildren_cons]
    cases hx : x.sym with
    | none => exact ih hgs
    | some c => exact ih (addToGroups_wf hgs hx)

theorem groupChildren_totalG (l : List Node) (gs : List (Char × List Node)) :
    totalG (groupChildren l gs) ≤ totalG gs + sizeNL l := by
  induction l generalizing gs with
  | nil => simp
  | cons x xs ih =>
    rw [groupChildren_cons]
    cases hx : x.sym with
    | none =>
      have := ih gs
      simp only [sizeNL_cons]
      have := sizeN_pos x
      omega
    | some c =>
      have h := ih (addToGroups c x gs)
      rw [addToGroups_totalG] at h
      simp only [sizeNL_cons]
      omega

theorem groupChildren_mem (l : List Node) (gs : List (Char × List Node)) (y : Node) :
    (∃ g ∈ groupChildren l gs, y ∈ g.2) ↔
      (∃ g ∈ gs, y ∈ g.2) ∨ (y ∈ l ∧ y.sym ≠ none) := by
  induction l generalizing gs with
  | nil => simp
  | cons x xs ih =>
    rw [groupChildren_cons]
    cases hx : x.sym with
    | none =>
      rw [ih]
      constructor
      · intro h
        rcases h with h | ⟨hy, hsy⟩
        · exact Or.inl h
        · exact Or.inr ⟨List.mem_cons_of_mem _ hy, hsy⟩
      · intro h
        rcases h with h | ⟨hy, hsy⟩
        · exact Or.inl h
        · rcases List.mem_cons.mp hy with hy | hy
          · subst hy; exact absurd hx hsy
          · exact Or.inr ⟨hy, hsy⟩
    | some c =>
      rw [ih, addToGroups_mem]
      constructor
      · intro h
        rcases h with (h | h) | ⟨hy, hsy⟩
        · exact Or.inl h
        · subst h
          exact Or.inr ⟨List.mem_cons_self _ _, by simp [hx]⟩
        · exact Or.inr ⟨List.mem_cons_of_mem _ hy, hsy⟩
      · intro h
        rcases h with h | ⟨hy, hsy⟩
        · exact Or.inl (Or.inl h)
        · rcases List.mem_cons.mp hy with hy | hy
          · exact Or.inl (Or.inr hy)
          · exact Or.inr ⟨hy, hsy⟩

theorem groupChildren_keys_nodup {l : List Node} {gs : List (Char × List Node)}
    (hgs : (gs.map Prod.fst).Nodup) : ((groupChildren l gs).map Prod.fst).Nodup := by
  induction l generalizing gs with
  | nil => simpa using hgs
  | cons x xs ih =>
    rw [groupChildren_cons]
    cases hx : x.sym with
    | none => exact ih hgs
    | some c =>
      apply ih
      rw [addToGroups_keys]
      by_cases hm : c ∈ gs.map Prod.fst
      · simpa [hm] using hgs
      · simp only [hm, if_false]
        rw [List.nodup_append]
        exact ⟨hgs, List.nodup_singleton c, by simpa using hm⟩

theorem groupBySym_wf (l : List Node) : GroupsWF (groupBySym l) :=
  groupChildren_wf (by intro g hg; cases hg)

theorem groupBySym_totalG (l : List Node) : totalG (groupBySym l) ≤ sizeNL l := by
  have := groupChildren_totalG l []
  simpa using this

theorem groupBySym_mem (l : List Node) (y : Node) :
    (∃ g ∈ groupBySym l, y ∈ g.2) ↔ y ∈ l ∧ y.sym ≠ none := by
  rw [groupBySym, groupChildren_mem]
  simp

theorem groupBySym_keys_nodup (l : List Node) :
    ((groupBySym l).map Prod.fst).Nodup :=
  groupChildren_keys_nodup (by simp)

theorem sizeN_eq (n : Node) : sizeN n = 1 + sizeNL n.children := by
  cases n with
  | mk s cs => rfl

theorem sizeNL_pos_of_ne_nil {l : List Node} (h : l ≠ []) : 1 ≤ sizeNL l := by
  cases l with
  | nil => exact absurd rfl h
  | cons x xs =>
    have := sizeN_pos x
    simp only [sizeNL_cons]
    omega

theorem length_le_sizeNL (l : List Node) : l.length ≤ sizeNL l := by
  induction l with
  | nil => simp
  | cons y ys ihy =>
    have := sizeN_pos y
    simp only [List.length_cons, sizeNL_cons]
    omega

theorem mergeF_mono_step (fuel : Nat) :
    (∀ n m r, mergeNodeF fuel n m = .ok r → mergeNodeF (fuel + 1) n m = .ok r) ∧
    (∀ gs cs, mergeGroupsF fuel gs = .ok cs → mergeGroupsF (fuel + 1) gs = .ok cs) ∧
    (∀ acc l r, mergeFoldF fuel acc l = .ok r → mergeFoldF (fuel + 1) acc l = .ok r) := by
  induction fuel with
  | zero =>
    refine ⟨?_, ?_, ?_⟩
    · intro n m r h; simp [mergeNodeF] at h
    · intro gs cs h; simp [mergeGroupsF] at h
    · intro acc l r h; simp [mergeFoldF] at h
  | succ f ih =>
    obtain ⟨ihA, ihG, ihF⟩ := ih
    refine ⟨?_, ?_, ?_⟩
    · intro n m r h
      by_cases hs : n.sym = m.sym
      · simp only [mergeNodeF, if_pos hs] at h ⊢
        cases hg : mergeGroupsF f (groupBySym (n.children ++ m.children)) with
        | ok cs =>
          rw [hg] at h
          rw [ihG _ _ hg]
          exact h
        | error e => rw [hg] at h; exact absurd h (by simp)
      · simp only [mergeNodeF, if_neg hs] at h
        exact absurd h (by simp)
    · intro gs cs h
      cases gs with
      | nil => simpa [mergeGroupsF] using h
      | cons g rest =>
        obtain ⟨c, nds⟩ := g
        simp only [mergeGroupsF] at h ⊢
        cases hf : mergeFoldF f (Node.new_empty (some c)) nds with
        | ok nd =>
          rw [hf] at h
          rw [ihF _ _ _ hf]
          cases hg : mergeGroupsF f rest with
          | ok cs' =>
            rw [hg] at h
            rw [ihG _ _ hg]
            exact h
          | error e => rw [hg] at h; exact absurd h (by simp)
        | error e => rw [hf] at h; exact absurd h (by simp)
    · intro acc l r h
      cases l with
      | nil => simpa [mergeFoldF] using h
      | cons x rest =>
        simp only [mergeFoldF] at h ⊢
        cases ha : mergeNodeF f acc x with
        | ok acc2 =>
          rw [ha] at h
          rw [ihA _ _ _ ha]
          exact ihF _ _ _ h
        | error e => rw [ha] at h; exact absurd h (by simp)

theorem mergeNodeF_mono {fuel fuel' : Nat} {n m r : Node} (hle : fuel ≤ fuel')
    (h : mergeNodeF fuel n m = .ok r) : mergeNodeF fuel' n m = .ok r := by
  induction fuel', hle using Nat.le_induction with
  | base => exact h
  | succ k hk ih => exact (mergeF_mono_step k).1 _ _ _ ih

theorem mergeF_ok (fuel : Nat) :
    (∀ n m, n.sym = m.sym → 3 * (sizeN n + sizeN m) ≤ fuel →
       ∃ r, mergeNodeF fuel n m = .ok r ∧ sizeN r + 1 ≤ sizeN n + sizeN m ∧
         r.sym = n.sym) ∧
    (∀ gs, GroupsWF gs → 3 * totalG gs + 5 ≤ fuel →
       ∃ cs, mergeGroupsF fuel gs = .ok cs ∧ sizeNL cs ≤ totalG gs) ∧
    (∀ acc l, (∀ x ∈ l, x.sym = acc.sym) → 1 + 3 * (sizeN acc + sizeNL l) ≤ fuel →
       ∃ r, mergeFoldF fuel acc l = .ok r ∧
         sizeN r + l.length ≤ sizeN acc + sizeNL l ∧ r.sym = acc.sym) := by
  induction fuel with
  | zero =>
    refine ⟨?_, ?_, ?_⟩
    · intro n m _ hf
      have := sizeN_pos n
      omega
    · intro gs _ hf
      omega
    · intro acc l _ hf
      omega
  | succ f ih =>
    obtain ⟨ihA, ihG, ihF⟩ := ih
    refine ⟨?_, ?_, ?_⟩
    · intro n m hs hf
      have hsn := sizeN_eq n
      have hsm := sizeN_eq m
      have htot := groupBySym_totalG (n.children ++ m.children)
      rw [sizeNL_append] at htot
      have hbud : 3 * totalG (groupBySym (n.children ++ m.children)) + 5 ≤ f := by omega
      obtain ⟨cs, hcs, hsz⟩ := ihG _ (groupBySym_wf _) hbud
      refine ⟨Node.mk n.sym cs, ?_, ?_, by simp⟩
      · simp only [mergeNodeF, if_pos hs, hcs]
      · simp only [sizeN_mk]
        omega
    · intro gs hwf hf
      cases gs with
      | nil => exact ⟨[], by simp [mergeGroupsF], by simp⟩
      | cons g rest =>
        obtain ⟨c, nds⟩ := g
        have hg := hwf (c, nds) (List.mem_cons_self _ _)
        have hrest : GroupsWF rest := fun g hg => hwf g (List.mem_cons_of_mem _ hg)
        have hnds1 : 1 ≤ sizeNL nds := sizeNL_pos_of_ne_nil hg.1
        have hlen : nds.length ≤ sizeNL nds := length_le_sizeNL nds
        have hlen1 : 1 ≤ nds.length := List.length_pos.mpr hg.1
        simp only [totalG_cons] at hf
        have hbudF : 1 + 3 * (sizeN (Node.new_empty (some c)) + sizeNL nds) ≤ f := by
          simp only [Node.new_empty, sizeN_mk, sizeNL_nil]
          omega
        obtain ⟨nd, hnd, hndsz, hndsym⟩ := ihF (Node.new_empty (some c)) nds
          (fun x hx => by rw [(hg.2 x hx)]; rfl) hbudF
        have hbudG : 3 * totalG rest + 5 ≤ f := by omega
        obtain ⟨cs', hcs', hcs'sz⟩ := ihG rest hrest hbudG
        refine ⟨nd :: cs', ?_, ?_⟩
        · simp only [mergeGroupsF, hnd, hcs']
        · simp only [sizeNL_cons, totalG_cons]
          simp only [Node.new_empty, sizeN_mk, sizeNL_nil] at hndsz
          omega
    · intro acc l hsyms hf
      cases l with
      | nil =>
        refine ⟨acc, by simp [mergeFoldF], by simp, rfl⟩
      | cons x rest =>
        have hx : x.sym = acc.sym := hsyms x (List.mem_cons_self _ _)
        simp only [sizeNL_cons] at hf
        have hbudA : 3 * (sizeN acc + sizeN x) ≤ f := by omega
        obtain ⟨acc2, hacc2, hacc2sz, hacc2sym⟩ := ihA acc x hx.symm hbudA
        have hbudF : 1 + 3 * (sizeN acc2 + sizeNL rest) ≤ f := by omega
        obtain ⟨r, hr, hrsz, hrsym⟩ := ihF acc2 rest
          (fun y hy => by rw [hsyms y (List.mem_cons_of_mem _ hy), ← hacc2sym]) hbudF
        refine ⟨r, ?_, ?_, by rw [hrsym, hacc2sym]⟩
        · simp only [mergeFoldF, hacc2]
          exact hr
        · simp only [List.length_cons, sizeNL_cons]
          omega

@[simp] theorem pathsList_none (cs : List Node) : pathsList (Node.mk none cs) = [] := rfl

@[simp] theorem pathsList_some (c : Char) (cs : List Node) :
    pathsList (Node.mk (some c) cs) = [c] :: (pathsListL cs).map (fun p => c :: p) := rfl

@[simp] theorem pathsListL_nil : pathsListL [] = [] := rfl

@[simp] theorem pathsListL_cons (x : Node) (xs : List Node) :
    pathsListL (x :: xs) = pathsList x ++ pathsListL xs := rfl

theorem pathsList_sentinel {x : Node} (h : x.sym = none) : pathsList x = [] := by
  cases x with
  | mk s cs => cases s with
    | none => rfl
    | some c => simp at h

theorem pathsListL_append (l1 l2 : List Node) :
    pathsListL (l1 ++ l2) = pathsListL l1 ++ pathsListL l2 := by
  induction l1 with
  | nil => simp
  | cons x xs ih => simp [ih]

theorem pathsListL_mem (l : List Node) (p : List Char) :
    p ∈ pathsListL l ↔ ∃ x ∈ l, p ∈ pathsList x := by
  induction l with
  | nil => simp
  | cons x xs ih =>
    simp only [pathsListL_cons, List.mem_append, ih]
    constructor
    · intro h
      rcases h with h | ⟨y, hy, hp⟩
      · exact ⟨x, List.mem_cons_self _ _, h⟩
      · exact ⟨y, List.mem_cons_of_mem _ hy, hp⟩
    · intro ⟨y, hy, hp⟩
      rcases List.mem_cons.mp hy with hy | hy
      · rw [hy] at hp; exact Or.inl hp
      · exact Or.inr ⟨y, hy, hp⟩

theorem pathsList_head {x : Node} {c : Char} (h : x.sym = some c) :
    ∀ p ∈ pathsList x, ∃ q, p = c :: q := by
  cases x with
  | mk s cs =>
    simp only [Node.sym_mk] at h
    subst h
    intro p hp
    simp only [pathsList_some, List.mem_cons, List.mem_map] at hp
    rcases hp with hp | ⟨q, _, hq⟩
    · exact ⟨[], hp⟩
    · exact ⟨q, hq.symm⟩

theorem head_mem_pathsList {x : Node} {c : Char} (h : x.sym = some c) :
    [c] ∈ pathsList x := by
  cases x with
  | mk s cs =>
    simp only [Node.sym_mk] at h
    subst h
    simp

theorem pathsList_eq {x : Node} {c : Char} (h : x.sym = some c) :
    pathsList x = [c] :: (pathsListL x.children).map (fun p => c :: p) := by
  cases x with
  | mk s cs =>
    simp only [Node.sym_mk] at h
    subst h
    rfl

theorem mergeF_spec (fuel : Nat) :
    (∀ n m r, mergeNodeF fuel n m = .ok r →
       n.sym = m.sym ∧ r.sym = n.sym ∧ Canon r ∧
       ∀ p, p ∈ pathsList r ↔ (p ∈ pathsList n ∨ p ∈ pathsList m)) ∧
    (∀ gs cs, mergeGroupsF fuel gs = .ok cs → GroupsWF gs →
       cs.map Node.sym = gs.map (fun g => some g.1) ∧ (∀ x ∈ cs, Canon x) ∧
       ∀ p, p ∈ pathsListL cs ↔ ∃ g ∈ gs, ∃ x ∈ g.2, p ∈ pathsList x) ∧
    (∀ acc l r, mergeFoldF fuel acc l = .ok r → Canon acc →
       r.sym = acc.sym ∧ Canon r ∧
       ∀ p, p ∈ pathsList r ↔ (p ∈ pathsList acc ∨ ∃ x ∈ l, p ∈ pathsList x)) := by
  induction fuel with
  | zero =>
    refine ⟨?_, ?_, ?_⟩
    · intro n m r h; simp [mergeNodeF] at h
    · intro gs cs h; simp [mergeGroupsF] at h
    · intro acc l r h; simp [mergeFoldF] at h
  | succ f ih =>
    obtain ⟨ihA, ihG, ihF⟩ := ih
    refine ⟨?_, ?_, ?_⟩
    · intro n m r h
      by_cases hs : n.sym = m.sym
      · simp only [mergeNodeF, if_pos hs] at h
        cases hg : mergeGroupsF f (groupBySym (n.children ++ m.children)) with
        | error e => rw [hg] at h; exact absurd h (by simp)
        | ok cs =>
          rw [hg] at h
          simp only [Except.ok.injEq] at h
          subst h
          obtain ⟨hmap, hcanon, hpaths⟩ := ihG _ _ hg (groupBySym_wf _)
          have hsymsome : ∀ x ∈ cs, x.sym ≠ none := by
            intro x hx hnone
            have : x.sym ∈ cs.map Node.sym := List.mem_map_of_mem _ hx
            rw [hmap] at this
            obtain ⟨g, _, hgx⟩ := List.mem_map.mp this
            rw [hnone] at hgx
            exact Option.noConfusion hgx
          have hnodup : (cs.map Node.sym).Nodup := by
            rw [hmap]
            have : (groupBySym (n.children ++ m.children)).map (fun g => some g.1)
                = ((groupBySym (n.children ++ m.children)).map Prod.fst).map some := by
              simp [List.map_map]
            rw [this]
            exact (groupBySym_keys_nodup _).map (Option.some_injective _)
          refine ⟨hs, by simp, Canon.mk hsymsome hnodup hcanon, ?_⟩
          intro p
          have hcs : ∀ q, q ∈ pathsListL cs ↔
              ∃ x ∈ n.children ++ m.children, q ∈ pathsList x := by
            intro q
            rw [hpaths q]
            constructor
            · intro ⟨g, hg', x, hx, hq⟩
              have := (groupBySym_mem (n.children ++ m.children) x).mp ⟨g, hg', hx⟩
              exact ⟨x, this.1, hq⟩
            · intro ⟨x, hx, hq⟩
              by_cases hxs : x.sym = none
              · rw [pathsList_sentinel hxs] at hq
                cases hq
              · obtain ⟨g, hg', hxg⟩ :=
                  (groupBySym_mem (n.children ++ m.children) x).mpr ⟨hx, hxs⟩
                exact ⟨g, hg', x, hxg, hq⟩
          cases hns : n.sym with
          | none =>
            have hms : m.sym = none := by rw [← hs, hns]
            rw [pathsList_sentinel hns, pathsList_sentinel hms, pathsList_none]
            simp
          | some c =>
            have hms : m.sym = some c := by rw [← hs, hns]
            rw [pathsList_some, pathsList_eq hns, pathsList_eq hms]
            simp only [Node.children_mk, List.mem_cons, List.mem_map]
            constructor
            · intro hcase
              rcases hcase with hp | ⟨q, hq, hpq⟩
              · exact Or.inl (Or.inl hp)
              · rw [hcs q] at hq
                obtain ⟨x, hx, hqx⟩ := hq
                rcases List.mem_append.mp hx with hx | hx
                · refine Or.inl (Or.inr ⟨q, ?_, hpq⟩)
                  rw [pathsListL_mem]
                  exact ⟨x, hx, hqx⟩
                · refine Or.inr (Or.inr ⟨q, ?_, hpq⟩)
                  rw [pathsListL_mem]
                  exact ⟨x, hx, hqx⟩
            · intro hcase
              rcases hcase with (hp | ⟨q, hq, hpq⟩) | (hp | ⟨q, hq, hpq⟩)
              all_goals first
                | exact Or.inl hp
                | {
                    refine Or.inr ⟨q, ?_, hpq⟩
                    rw [hcs q]
                    rw [pathsListL_mem] at hq
                    obtain ⟨x, hx, hqx⟩ := hq
                    refine ⟨x, List.mem_append.mpr ?_, hqx⟩
                    first
                      | exact Or.inl hx
                      | exact Or.inr hx
                  }
      · simp only [mergeNodeF, if_neg hs] at h
        exact absurd h (by simp)
    · intro gs cs h hwf
      cases gs with
      | nil =>
        simp only [mergeGroupsF, Except.ok.injEq] at h
        subst h
        simp
      | cons g rest =>
        obtain ⟨c, nds⟩ := g
        have hg := hwf (c, nds) (List.mem_cons_self _ _)
        have hrest : GroupsWF rest := fun g hgm => hwf g (List.mem_cons_of_mem _ hgm)
        simp only [mergeGroupsF] at h
        cases hfold : mergeFoldF f (Node.new_empty (some c)) nds with
        | error e => rw [hfold] at h; exact absurd h (by simp)
        | ok nd =>
          rw [hfold] at h
          cases hgr : mergeGroupsF f rest with
          | error e => rw [hgr] at h; exact absurd h (by simp)
          | ok cs' =>
            rw [hgr] at h
            simp only [Except.ok.injEq] at h
            subst h
            have hcanon0 : Canon (Node.new_empty (some c)) :=
              Canon.mk (by simp) (by simp) (by simp)
            obtain ⟨hndsym, hndcanon, hndpaths⟩ := ihF _ _ _ hfold hcanon0
            obtain ⟨hmap', hcanon', hpaths'⟩ := ihG _ _ hgr hrest
            have hndsym' : nd.sym = some c := by
              rw [hndsym]; rfl
            refine ⟨by simp [hndsym', hmap'], ?_, ?_⟩
            · intro x hx
              rcases List.mem_cons.mp hx with hx | hx
              · rw [hx]; exact hndcanon
              · exact hcanon' x hx
            · intro p
              have hpnd : p ∈ pathsList nd ↔ ∃ x ∈ nds, p ∈ pathsList x := by
                rw [hndpaths p]
                constructor
                · intro hcase
                  rcases hcase with hp | hp
                  · obtain ⟨x0, hx0⟩ := List.exists_mem_of_ne_nil nds hg.1
                    simp only [Node.new_empty, pathsList_some, pathsListL_nil,
                      List.map_nil, List.mem_singleton] at hp
                    subst hp
                    exact ⟨x0, hx0, head_mem_pathsList (hg.2 x0 hx0)⟩
                  · exact hp
                · intro hp
                  exact Or.inr hp
              simp only [pathsListL_cons, List.mem_append, hpnd, hpaths' p]
              constructor
              · intro hcase
                rcases hcase with ⟨x, hx, hp⟩ | ⟨g, hgm, x, hx, hp⟩
                · exact ⟨(c, nds), List.mem_cons_self _ _, x, hx, hp⟩
                · exact ⟨g, List.mem_cons_of_mem _ hgm, x, hx, hp⟩
              · intro ⟨g, hgm, x, hx, hp⟩
                rcases List.mem_cons.mp hgm with hgm | hgm
                · subst hgm
                  exact Or.inl ⟨x, hx, hp⟩
                · exact Or.inr ⟨g, hgm, x, hx, hp⟩
    · intro acc l r h hcanon
      cases l with
      | nil =>
        simp only [mergeFoldF, Except.ok.injEq] at h
        subst h
        refine ⟨rfl, hcanon, ?_⟩
        simp
      | cons x rest =>
        simp only [mergeFoldF] at h
        cases ha : mergeNodeF f acc x with
        | error e => rw [ha] at h; exact absurd h (by simp)
        | ok acc2 =>
          rw [ha] at h
          obtain ⟨_, hacc2sym, hacc2canon, hacc2paths⟩ := ihA _ _ _ ha
          obtain ⟨hrsym, hrcanon, hrpaths⟩ := ihF _ _ _ h hacc2canon
          refine ⟨by rw [hrsym, hacc2sym], hrcanon, ?_⟩
          intro p
          rw [hrpaths p, hacc2paths p]
          constructor
          · intro hcase
            rcases hcase with (hp | hp) | ⟨y, hy, hp⟩
            · exact Or.inl hp
            · exact Or.inr ⟨x, List.mem_cons_self _ _, hp⟩
            · exact Or.inr ⟨y, List.mem_cons_of_mem _ hy, hp⟩
          · intro hcase
            rcases hcase with hp | ⟨y, hy, hp⟩
            · exact Or.inl (Or.inl hp)
            · rcases List.mem_cons.mp hy with hy | hy
              · rw [hy] at hp
                exact Or.inl (Or.inr hp)
              · exact Or.inr ⟨y, hy, hp⟩

theorem mergeNodeF_ok_of_sym_eq {n m : Node} (hs : n.sym = m.sym) :
    mergeNodeF (3 * (sizeN n + sizeN m)) n m = .ok (mergeNode n m) := by
  obtain ⟨r, hr, -, -⟩ := (mergeF_ok (3 * (sizeN n + sizeN m))).1 n m hs (le_refl _)
  rw [mergeNode, hr]

theorem mergeNodeF_eq_mergeNode {n m : Node} {fuel : Nat} (hs : n.sym = m.sym)
    (hf : 3 * (sizeN n + sizeN m) ≤ fuel) :
    mergeNodeF fuel n m = .ok (mergeNode n m) :=
  mergeNodeF_mono hf (mergeNodeF_ok_of_sym_eq hs)

theorem mergeNode_sym (n m : Node) : (mergeNode n m).sym = n.sym := by
  rw [mergeNode]
  cases hr : mergeNodeF (3 * (sizeN n + sizeN m)) n m with
  | ok r => exact ((mergeF_spec _).1 n m r hr).2.1
  | error e => rfl

theorem mergeNode_canon {n m : Node} (hs : n.sym = m.sym) : Canon (mergeNode n m) :=
  ((mergeF_spec _).1 n m _ (mergeNodeF_ok_of_sym_eq hs)).2.2.1

theorem mergeNode_paths {n m : Node} (hs : n.sym = m.sym) (p : List Char) :
    p ∈ pathsList (mergeNode n m) ↔ p ∈ pathsList n ∨ p ∈ pathsList m :=
  ((mergeF_spec _).1 n m _ (mergeNodeF_ok_of_sym_eq hs)).2.2.2 p

theorem hasSentinelL_eq_false {cs : List Node} :
    hasSentinelL cs = false ↔ ∀ x ∈ cs, hasSentinel x = false := by
  induction cs with
  | nil => simp [hasSentinelL]
  | cons x xs ih =>
    simp only [hasSentinelL, Bool.or_eq_false_iff, ih]
    constructor
    · intro ⟨h1, h2⟩ y hy
      rcases List.mem_cons.mp hy with hy | hy
      · rw [hy]; exact h1
      · exact h2 y hy
    · intro h
      exact ⟨h x (List.mem_cons_self _ _), fun y hy => h y (List.mem_cons_of_mem _ hy)⟩

theorem canon_sentinel_free {n : Node} (hc : Canon n) (hs : n.sym ≠ none) :
    hasSentinel n = false := by
  induction hc with
  | mk hsome hnd hcanon ih =>
    rename_i s cs
    cases s with
    | none => exact absurd rfl hs
    | some c =>
      show hasSentinelL cs = false
      rw [hasSentinelL_eq_false]
      intro x hx
      exact ih x hx (hsome x hx)

theorem canon_children_sentinel_free {n : Node} (hc : Canon n) :
    ∀ c ∈ n.children, hasSentinel c = false := by
  cases hc with
  | mk hsome hnd hcanon =>
    intro c hcmem
    exact canon_sentinel_free (hcanon c hcmem) (hsome c hcmem)

theorem pathsList_ne_nil {x : Node} : ∀ p ∈ pathsList x, p ≠ [] := by
  cases x with
  | mk s cs =>
    cases s with
    | none => simp
    | some c =>
      intro p hp
      simp only [pathsList_some, List.mem_cons, List.mem_map] at hp
      rcases hp with hp | ⟨q, _, hq⟩
      · rw [hp]; simp
      · rw [← hq]; simp

theorem pathsListL_nodup {cs : List Node} (hsome : ∀ c ∈ cs, c.sym ≠ none)
    (hnd : (cs.map Node.sym).Nodup) (hper : ∀ c ∈ cs, (pathsList c).Nodup) :
    (pathsListL cs).Nodup := by
  induction cs with
  | nil => simp
  | cons x xs ih =>
    simp only [pathsListL_cons]
    rw [List.nodup_append]
    refine ⟨hper x (List.mem_cons_self _ _), ?_, ?_⟩
    · exact ih (fun c hc => hsome c (List.mem_cons_of_mem _ hc))
        (by simpa using (List.nodup_cons.mp (by simpa using hnd)).2)
        (fun c hc => hper c (List.mem_cons_of_mem _ hc))
    · intro p hpx hpxs
      obtain ⟨cx, hcx⟩ := Option.ne_none_iff_exists'.mp (hsome x (List.mem_cons_self _ _))
      obtain ⟨qx, hqx⟩ := pathsList_head hcx p hpx
      obtain ⟨y, hy, hpy⟩ := (pathsListL_mem _ _).mp hpxs
      obtain ⟨cy, hcy⟩ := Option.ne_none_iff_exists'.mp
        (hsome y (List.mem_cons_of_mem _ hy))
      obtain ⟨qy, hqy⟩ := pathsList_head hcy p hpy
      have hxy : x.sym = y.sym := by
        rw [hcx, hcy]
        rw [hqx] at hqy
        exact congrArg some (List.head_eq_of_cons_eq hqy)
      have : x.sym ∉ xs.map Node.sym := (List.nodup_cons.mp (by simpa using hnd)).1
      exact this (hxy ▸ List.mem_map_of_mem Node.sym hy)

theorem canon_paths_nodup {n : Node} (hc : Canon n) : (pathsList n).Nodup := by
  induction hc with
  | mk hsome hnd hcanon ih =>
    rename_i s cs
    cases s with
    | none => simp
    | some c =>
      simp only [pathsList_some]
      rw [List.nodup_cons]
      constructor
      · intro hmem
        obtain ⟨q, hq, hcq⟩ := List.mem_map.mp hmem
        have : q ≠ [] := by
          obtain ⟨x, hx, hqx⟩ := (pathsListL_mem _ _).mp hq
          exact pathsList_ne_nil q hqx
        apply this
        have := List.tail_eq_of_cons_eq hcq
        simpa using this.symm ▸ rfl
      · refine List.Nodup.map ?_ (pathsListL_nodup hsome hnd ih)
        intro a b hab
        exact List.tail_eq_of_cons_eq hab

theorem chainShape_from_iter (l : List Char) : ChainShape l (Node._from_iter l) := by
  induction l with
  | nil => simp [ChainShape, Node._from_iter, Node.new_empty]
  | cons c rest ih =>
    refine ⟨by simp [Node._from_iter], Node._from_iter rest, by simp [Node._from_iter], ih⟩

theorem insertRoots_sym_mem {l : List Node} {m : Node} {a : Option Char}
    (h : a ∈ (insertRoots l m).map Node.sym) : a ∈ l.map Node.sym ∨ a = m.sym := by
  induction l with
  | nil =>
    simp only [insertRoots, List.map_cons, List.map_nil, List.mem_singleton] at h
    exact Or.inr h
  | cons n rest ih =>
    by_cases hs : n.sym = m.sym
    · simp only [insertRoots, if_pos hs, List.map_append, List.mem_append] at h
      rcases h with h | h
      · exact Or.inl (by simp [h])
      · simp only [List.map_cons, List.map_nil, List.mem_singleton, mergeNode_sym] at h
        exact Or.inr (by rw [h, hs])
    · simp only [insertRoots, if_neg hs, List.map_cons, List.mem_cons] at h
      rcases h with h | h
      · exact Or.inl (by simp [h])
      · rcases ih h with h | h
        · exact Or.inl (List.mem_cons_of_mem _ h)
        · exact Or.inr h

theorem insertRoots_nodup {l : List Node} {m : Node}
    (h : (l.map Node.sym).Nodup) : ((insertRoots l m).map Node.sym).Nodup := by
  induction l with
  | nil => simp [insertRoots]
  | cons n rest ih =>
    simp only [List.map_cons, List.nodup_cons] at h
    by_cases hs : n.sym = m.sym
    · simp only [insertRoots, if_pos hs, List.map_append, List.map_cons, List.map_nil]
      refine (List.perm_append_singleton (mergeNode n m).sym
        (rest.map Node.sym)).symm.nodup ?_
      rw [List.nodup_cons, mergeNode_sym]
      exact h
    · simp only [insertRoots, if_neg hs, List.map_cons, List.nodup_cons]
      refine ⟨?_, ih h.2⟩
      intro hmem
      rcases insertRoots_sym_mem hmem with hmem | hmem
      · exact h.1 hmem
      · exact hs hmem

/-- C3: for every sequence of strings inserted into an initially empty `Trie`
via `insert`, the root nodes of the resulting forest have pairwise-distinct
symbols (over `Option Char`, so at most one `None` root); the invariant
holds after every single insert call, every prefix of the input list being
such a sequence. -/
theorem claimC3 (ss : List String) :
    ((buildTrie ss).children.map Node.sym).Nodup := by
  have aux : ∀ (ss' : List String) (t : Trie), (t.children.map Node.sym).Nodup →
      (((ss'.foldl (fun t s => t.insert (Node.from_string s)) t)).children.map
        Node.sym).Nodup := by
    intro ss'
    induction ss' with
    | nil => intro t ht; exact ht
    | cons s rest ih =>
      intro t ht
      exact ih _ (insertRoots_nodup ht)
  exact aux ss Trie.new (by simp [Trie.new])

/-- C5: `from_string` turns a string of length `k` into a linear chain of
`k` real-symbol nodes carrying the characters in order, each with exactly
one child, terminated by a single childless sentinel; the empty string maps
to the lone sentinel.  `Node.from_string` is a total function, so no input
character sequence is rejected. -/
theorem claimC5 (s : String) : ChainShape s.data (Node.from_string s) :=
  chainShape_from_iter s.data

theorem insertRoots_paths (l : List Node) (m : Node) (p : List Char) :
    p ∈ pathsListL (insertRoots l m) ↔ p ∈ pathsListL l ∨ p ∈ pathsList m := by
  induction l with
  | nil => simp [insertRoots]
  | cons n rest ih =>
    by_cases hs : n.sym = m.sym
    · simp only [insertRoots, if_pos hs, pathsListL_append, pathsListL_cons,
        pathsListL_nil, List.append_nil, List.mem_append, mergeNode_paths hs p]
      tauto
    · simp only [insertRoots, if_neg hs, pathsListL_cons, List.mem_append, ih]
      tauto

theorem pathsTrie_insert_mono (ss : List String) (u : Trie) (q : List Char)
    (h : q ∈ pathsTrie u) :
    q ∈ pathsTrie (ss.foldl (fun v r => v.insert (Node.from_string r)) u) := by
  induction ss generalizing u with
  | nil => exact h
  | cons r rest ih =>
    refine ih _ ?_
    simp only [pathsTrie, Trie.insert, insertRoots_paths]
    exact Or.inl h

/-- C7: re-inserting an already-inserted string changes nothing: for every
trie state `t` and string `s`, once `from_string s` has been inserted,
inserting it a second time (any number of other insertions later) leaves
the set of reachable symbol-paths of the forest unchanged. -/
theorem claimC7 (t : Trie) (s : String) (ss : List String) (p : List Char) :
    p ∈ pathsTrie ((ss.foldl (fun v r => v.insert (Node.from_string r))
        (t.insert (Node.from_string s))).insert (Node.from_string s)) ↔
      p ∈ pathsTrie (ss.foldl (fun v r => v.insert (Node.from_string r))
        (t.insert (Node.from_string s))) := by
  constructor
  · intro h
    rw [pathsTrie, Trie.insert, insertRoots_paths] at h
    rcases h with h | h
    · exact h
    · refine pathsTrie_insert_mono ss _ p ?_
      simp only [pathsTrie, Trie.insert, insertRoots_paths]
      exact Or.inr h
  · intro h
    rw [pathsTrie, Trie.insert, insertRoots_paths]
    exact Or.inl h

/-- C6: merge is associative and commutative up to structural equivalence:
for nodes `a`, `b`, `c` sharing one root symbol, the two groupings produce
trees with the same multiset of symbol-paths, and so do the two orders of a
single merge.  (Node identifiers are address-based and need not agree.) -/
theorem claimC6 (a b c : Node) (hab : a.sym = b.sym) (hbc : b.sym = c.sym) :
    (↑(pathsList (mergeNode (mergeNode a b) c)) : Multiset (List Char)) =
      ↑(pathsList (mergeNode a (mergeNode b c))) ∧
    (↑(pathsList (mergeNode a b)) : Multiset (List Char)) =
      ↑(pathsList (mergeNode b a)) := by
  have hab' : (mergeNode a b).sym = c.sym := by rw [mergeNode_sym, hab, hbc]
  have hbc' : a.sym = (mergeNode b c).sym := by rw [mergeNode_sym, hab]
  constructor
  · rw [Multiset.Nodup.ext
      (by rw [Multiset.coe_nodup]; exact canon_paths_nodup (mergeNode_canon hab'))
      (by rw [Multiset.coe_nodup]; exact canon_paths_nodup (mergeNode_canon hbc'))]
    intro p
    simp only [Multiset.mem_coe, mergeNode_paths hab', mergeNode_paths hab,
      mergeNode_paths hbc', mergeNode_paths hbc]
    tauto
  · rw [Multiset.Nodup.ext
      (by rw [Multiset.coe_nodup]; exact canon_paths_nodup (mergeNode_canon hab))
      (by rw [Multiset.coe_nodup]; exact canon_paths_nodup (mergeNode_canon hab.symm))]
    intro p
    simp only [Multiset.mem_coe, mergeNode_paths hab, mergeNode_paths hab.symm]
    tauto

/-- Witness for C6 at the concrete chains of "ab", "ac", "ad". -/
theorem claimC6_witness :
    (Node.from_string "ab").sym = (Node.from_string "ac").sym ∧
    (Node.from_string "ac").sym = (Node.from_string "ad").sym ∧
    ((↑(pathsList (mergeNode (mergeNode (Node.from_string "ab") (Node.from_string "ac"))
        (Node.from_string "ad"))) : Multiset (List Char)) =
      ↑(pathsList (mergeNode (Node.from_string "ab")
        (mergeNode (Node.from_string "ac") (Node.from_string "ad")))) ∧
    (↑(pathsList (mergeNode (Node.from_string "ab") (Node.from_string "ac"))) :
        Multiset (List Char)) =
      ↑(pathsList (mergeNode (Node.from_string "ac") (Node.from_string "ab")))) :=
  ⟨by decide, by decide,
    claimC6 (Node.from_string "ab") (Node.from_string "ac") (Node.from_string "ad")
      (by decide) (by decide)⟩

/-- C1 counterexample: `Node::id` reads only the node's address, so two nodes
of identical content (say two copies of the leaf `N`, as the two `N` nodes of
the merged WIN/WON trie) stored at the distinct addresses 1 and 2 receive
different id strings, refuting "same subtree shape implies same id". -/
theorem claimC1_counterexample : nodeId 1 ≠ nodeId 2 := by decide

/-- C1 amended: the identifier is derived deterministically from the node's
memory address alone, never from its content: ids agree exactly when the
addresses print identically (in particular, the same node always receives
the same id during one pass, and content-equal nodes at different addresses
can receive different ids). -/
theorem claimC1_amended (a b : Nat) : nodeId a = nodeId b ↔ Nat.repr a = Nat.repr b := by
  constructor
  · intro h
    have hd := congrArg String.data h
    simp only [nodeId, String.data_append] at hd
    have := List.append_cancel_left hd
    exact String.ext this
  · intro h
    simp [nodeId, h]

/-- C4: `_merge_node` has precondition `a.sym == b.sym`.  At any sufficient
fuel, calling it on nodes with differing symbols hits the fatal
`assert_eq!` (modelled `.error true`) before any other work, and on nodes
with equal symbols the assertion (in this and in every recursive call)
passes and the merge runs to completion, returning a node. -/
theorem claimC4 (n m : Node) (fuel : Nat) (hf : 3 * (sizeN n + sizeN m) ≤ fuel) :
    (n.sym ≠ m.sym → mergeNodeF fuel n m = .error true) ∧
    (n.sym = m.sym → mergeNodeF fuel n m = .ok (mergeNode n m)) := by
  constructor
  · intro hs
    have h1 := sizeN_pos n
    have h2 := sizeN_pos m
    cases fuel with
    | zero => omega
    | succ f => simp [mergeNodeF, hs]
  · intro hs
    exact mergeNodeF_eq_mergeNode hs hf

/-- Witness for C4: differing symbols panic, equal symbols return normally,
at fuel 6 for two single-node operands. -/
theorem claimC4_witness :
    3 * (sizeN (Node.mk (some 'a') []) + sizeN (Node.mk (some 'b') [])) ≤ 6 ∧
    mergeNodeF 6 (Node.mk (some 'a') []) (Node.mk (some 'b') []) = .error true ∧
    mergeNodeF 6 (Node.mk (some 'a') []) (Node.mk (some 'a') []) =
      .ok (mergeNode (Node.mk (some 'a') []) (Node.mk (some 'a') [])) :=
  ⟨by decide,
    (claimC4 (Node.mk (some 'a') []) (Node.mk (some 'b') []) 6 (by decide)).1 (by decide),
    (claimC4 (Node.mk (some 'a') []) (Node.mk (some 'a') []) 6 (by decide)).2 (by decide)⟩

/-- C10 counterexample: merging two sentinels (which share the symbol `None`,
as happens when the empty line is inserted twice) returns a node that is
itself a sentinel, so the returned tree does contain a sentinel in its
subtree, refuting the claim as stated for every same-symbol pair. -/
theorem claimC10_counterexample :
    (Node.mk none []).sym = (Node.mk none []).sym ∧
    hasSentinel (mergeNode (Node.mk none []) (Node.mk none [])) = true :=
  ⟨rfl, by decide⟩

/-- C10 amended: for every pair of same-symbol nodes, the tree returned by
`_merge_node` contains no sentinel strictly below its root — sentinel
children are dropped recursively at every depth — and therefore, whenever
the shared root symbol is a real symbol, the returned tree contains no
sentinel anywhere at all. -/
theorem claimC10_amended (n m : Node) (hs : n.sym = m.sym) :
    (∀ c ∈ (mergeNode n m).children, hasSentinel c = false) ∧
    (n.sym ≠ none → hasSentinel (mergeNode n m) = false) := by
  constructor
  · exact canon_children_sentinel_free (mergeNode_canon hs)
  · intro hn
    refine canon_sentinel_free (mergeNode_canon hs) ?_
    rw [mergeNode_sym]
    exact hn

/-- Witness for C10 amended, at the chains of "ab" and "ac". -/
theorem claimC10_witness :
    (Node.from_string "ab").sym = (Node.from_string "ac").sym ∧
    (∀ c ∈ (mergeNode (Node.from_string "ab") (Node.from_string "ac")).children,
      hasSentinel c = false) ∧
    ((Node.from_string "ab").sym ≠ none →
      hasSentinel (mergeNode (Node.from_string "ab") (Node.from_string "ac")) = false) :=
  ⟨by decide,
    (claimC10_amended (Node.from_string "ab") (Node.from_string "ac") (by decide)).1,
    (claimC10_amended (Node.from_string "ab") (Node.from_string "ac") (by decide)).2⟩

theorem edge_src_len (k : Nat) :
    (∀ x p q d, sizeN x ≤ k → Stmt.edge q d ∈ printDotN p x → p.length ≤ q.length) ∧
    (∀ l p i q d, sizeNL l ≤ k → Stmt.edge q d ∈ printChildren p i l →
      p.length ≤ q.length) := by
  induction k with
  | zero =>
    constructor
    · intro x p q d hk
      have := sizeN_pos x
      omega
    · intro l p i q d hk hmem
      cases l with
      | nil => simp [printChildren] at hmem
      | cons nn rest =>
        have := sizeN_pos nn
        simp only [sizeNL_cons] at hk
        omega
  | succ k ih =>
    obtain ⟨ihA, ihB⟩ := ih
    have hA : ∀ x p q d, sizeN x ≤ k + 1 → Stmt.edge q d ∈ printDotN p x →
        p.length ≤ q.length := by
      intro x p q d hk hmem
      cases x with
      | mk s cs =>
        cases s with
        | none => simp [printDotN] at hmem
        | some c =>
          simp only [printDotN, List.mem_cons] at hmem
          rcases hmem with hmem | hmem
          · cases hmem
          · simp only [sizeN_mk] at hk
            exact ihB cs p 0 q d (by omega) hmem
    refine ⟨hA, ?_⟩
    intro l p i q d hk hmem
    induction l generalizing i with
    | nil => simp [printChildren] at hmem
    | cons nn rest ihl =>
      simp only [printChildren] at hmem
      by_cases hnn : nn.sym = none
      · rw [if_pos hnn] at hmem
        cases hmem
      · rw [if_neg hnn] at hmem
        simp only [sizeNL_cons] at hk
        rcases List.mem_cons.mp hmem with hmem | hmem
        · injection hmem with h1 h2
          rw [h1]
        · rcases List.mem_append.mp hmem with hmem | hmem
          · have := hA nn (p ++ [i]) q d (by omega) hmem
            simp only [List.length_append, List.length_singleton] at this
            omega
          · exact ihl (i + 1) (by omega) hmem

theorem printChildren_sentinel_no_edge (l : List Node) :
    ∀ p k i j, i ≤ j → ∀ (hi : i < l.length), (l.get ⟨i, hi⟩).sym = none →
      Stmt.edge p (p ++ [k + j]) ∉ printChildren p k l := by
  induction l with
  | nil =>
    intro p k i j _ hi
    simp at hi
  | cons nn rest ih =>
    intro p k i j hij hi hsent hmem
    by_cases hnn : nn.sym = none
    · simp only [printChildren, if_pos hnn] at hmem
      cases hmem
    · have hi0 : i ≠ 0 := by
        intro h
        subst h
        exact hnn hsent
      obtain ⟨i', rfl⟩ := Nat.exists_eq_succ_of_ne_zero hi0
      obtain ⟨j', rfl⟩ := Nat.exists_eq_succ_of_ne_zero (by omega : j ≠ 0)
      simp only [printChildren, if_neg hnn] at hmem
      rcases List.mem_cons.mp hmem with hmem | hmem
      · injection hmem with h1 h2
        have := List.append_cancel_left h2
        simp only [List.cons.injEq] at this
        omega
      · rcases List.mem_append.mp hmem with hmem | hmem
        · have := (edge_src_len (sizeN nn)).1 nn (p ++ [k]) p _ (le_refl _) hmem
          simp only [List.length_append, List.length_singleton] at this
          omega
        · have heq : (k + 1) + j' = k + (j' + 1) := by omega
          have := ih p (k + 1) i' j' (by omega)
            (by simpa using hi) (by simpa using hsent)
          rw [heq] at this
          exact this hmem

/-- C2: the serializer's child loop literally stops on the first sentinel:
if some child at position `i` is the sentinel, no edge from the node to any
child at a position at or past `i` is ever emitted (the loop breaks instead
of skipping), for the node serialized at any path `p`. -/
theorem claimC2 (n : Node) (p : List Nat) (i j : Nat) (hij : i ≤ j)
    (hi : i < n.children.length) (hs : (n.children.get ⟨i, hi⟩).sym = none) :
    Stmt.edge p (p ++ [j]) ∉ printDotN p n := by
  cases n with
  | mk s cs =>
    cases s with
    | none => simp [printDotN]
    | some c =>
      intro hmem
      simp only [printDotN, List.mem_cons] at hmem
      rcases hmem with hmem | hmem
      · cases hmem
      · have := printChildren_sentinel_no_edge cs p 0 i j hij
          (by simpa using hi) (by simpa using hs)
        simp only [Nat.zero_add] at this
        exact this hmem

/-- Witness for C2: a node whose first child is the sentinel and whose
second child is real; no edge to the second child is emitted. -/
theorem claimC2_witness :
    (0 : Nat) ≤ 1 ∧
    Stmt.edge [] ([] ++ [1]) ∉
      printDotN [] (Node.mk (some 'a') [Node.mk none [], Node.mk (some 'b') []]) :=
  ⟨by decide,
    claimC2 (Node.mk (some 'a') [Node.mk none [], Node.mk (some 'b') []]) [] 0 1
      (by decide) (by decide) (by decide)⟩

theorem soc_from_iter (l : List Char) : SOC (Node._from_iter l) := by
  induction l with
  | nil =>
    refine SOC.mk ?_ ?_
    · intro ⟨x, hx, _⟩
      cases hx
    · intro x hx
      cases hx
  | cons c rest ih =>
    refine SOC.mk ?_ ?_
    · intro _
      rfl
    · intro x hx
      simp only [List.mem_singleton] at hx
      rw [hx]
      exact ih

theorem canon_soc {n : Node} (hc : Canon n) : SOC n := by
  induction hc with
  | mk hsome hnd hcanon ih =>
    refine SOC.mk ?_ ?_
    · intro ⟨x, hx, hxs⟩
      exact absurd hxs (hsome x hx)
    · exact ih

theorem insertRoots_soc {l : List Node} {m : Node} (hl : ∀ x ∈ l, SOC x)
    (hm : SOC m) : ∀ x ∈ insertRoots l m, SOC x := by
  induction l with
  | nil =>
    intro x hx
    simp only [insertRoots, List.mem_singleton] at hx
    rw [hx]
    exact hm
  | cons n rest ih =>
    intro x hx
    by_cases hs : n.sym = m.sym
    · simp only [insertRoots, if_pos hs] at hx
      rcases List.mem_append.mp hx with hx | hx
      · exact hl x (List.mem_cons_of_mem _ hx)
      · simp only [List.mem_singleton] at hx
        rw [hx]
        exact canon_soc (mergeNode_canon hs)
    · simp only [insertRoots, if_neg hs] at hx
      rcases List.mem_cons.mp hx with hx | hx
      · rw [hx]
        exact hl n (List.mem_cons_self _ _)
      · exact ih (fun y hy => hl y (List.mem_cons_of_mem _ hy)) x hx

theorem buildTrie_soc (ss : List String) : ∀ x ∈ (buildTrie ss).children, SOC x := by
  have aux : ∀ (ss' : List String) (t : Trie), (∀ x ∈ t.children, SOC x) →
      ∀ x ∈ ((ss'.foldl (fun t s => t.insert (Node.from_string s)) t)).children,
        SOC x := by
    intro ss'
    induction ss' with
    | nil => intro t ht; exact ht
    | cons s rest ih =>
      intro t ht
      exact ih _ (insertRoots_soc ht (soc_from_iter _))
  exact aux ss Trie.new (by intro x hx; cases hx)

theorem print_soc_eq (k : Nat) :
    (∀ x p, sizeN x ≤ k → SOC x → printDotN p x = printDotSkipN p x) ∧
    (∀ l p i, sizeNL l ≤ k → (∀ x ∈ l, SOC x) →
      ((∃ x ∈ l, x.sym = none) → l.length = 1) →
      printChildren p i l = printChildrenSkip p i l) := by
  induction k with
  | zero =>
    constructor
    · intro x p hk
      have := sizeN_pos x
      omega
    · intro l p i hk _ _
      cases l with
      | nil => rfl
      | cons nn rest =>
        have := sizeN_pos nn
        simp only [sizeNL_cons] at hk
        omega
  | succ k ih =>
    obtain ⟨ihA, ihB⟩ := ih
    have hA : ∀ x p, sizeN x ≤ k + 1 → SOC x → printDotN p x = printDotSkipN p x := by
      intro x p hk hsoc
      cases x with
      | mk s cs =>
        cases s with
        | none => rfl
        | some c =>
          cases hsoc with
          | mk hlen hsub =>
            simp only [printDotN, printDotSkipN, sizeN_mk] at hk ⊢
            rw [ihB cs p 0 (by omega) hsub hlen]
    refine ⟨hA, ?_⟩
    intro l p i hk hsoc hlen
    induction l generalizing i with
    | nil => rfl
    | cons nn rest ihl =>
      by_cases hnn : nn.sym = none
      · have h1 : (nn :: rest).length = 1 :=
          hlen ⟨nn, List.mem_cons_self _ _, hnn⟩
        simp only [List.length_cons] at h1
        have : rest = [] := List.eq_nil_of_length_eq_zero (by omega)
        subst this
        simp [printChildren, printChildrenSkip, hnn]
      · simp only [sizeNL_cons] at hk
        simp only [printChildren, printChildrenSkip, if_neg hnn]
        rw [hA nn (p ++ [i]) (by omega) (hsoc nn (List.mem_cons_self _ _))]
        rw [ihl (i + 1) (by omega) (fun y hy => hsoc y (List.mem_cons_of_mem _ hy)) ?_]
        intro ⟨x, hx, hxs⟩
        have h1 := hlen ⟨x, List.mem_cons_of_mem _ hx, hxs⟩
        simp only [List.length_cons] at h1
        have : rest = [] := List.eq_nil_of_length_eq_zero (by omega)
        subst this
        cases hx

theorem printRoots_soc_eq (l : List Node) (i : Nat) (h : ∀ x ∈ l, SOC x) :
    printRoots i l = printRootsSkip i l := by
  induction l generalizing i with
  | nil => rfl
  | cons n rest ih =>
    simp only [printRoots, printRootsSkip]
    rw [(print_soc_eq (sizeN n)).1 n [i] (le_refl _) (h n (List.mem_cons_self _ _)),
      ih (i + 1) (fun y hy => h y (List.mem_cons_of_mem _ hy))]

/-- C9: in every trie built solely by inserting `from_string` results into an
initially empty trie, a node with a sentinel child has that sentinel as its
only child (hereditarily, `SOC`); consequently the serializer's
stop-on-sentinel break never skips a real sibling subtree and its output
coincides with the skip-and-continue policy on every such reachable state. -/
theorem claimC9 (ss : List String) :
    (∀ r ∈ (buildTrie ss).children, SOC r) ∧
    trieDot (buildTrie ss) = trieDotSkip (buildTrie ss) := by
  refine ⟨buildTrie_soc ss, ?_⟩
  exact printRoots_soc_eq _ 0 (buildTrie_soc ss)

/-- The full-program output for the input lines "win" and "won": the main
loop normalizes each line (here, uppercases it), inserts its chain, and
serializes the final trie. -/
def winWonOut : List Stmt := trieDot (mainTrie [['w', 'i', 'n'], ['w', 'o', 'n']])

/-- C8: end-to-end, the inputs "win" and "won" (uppercased to "WIN", "WON")
produce exactly one declaration each for `W`, `I`, `O`, two declarations for
`N` carrying distinct ids, five declarations in all, and exactly the four
edges `W -> I`, `W -> O`, `I -> N`, `O -> N` (up to order); every edge
endpoint is a declared (hence real-symbol) node, and sentinels are neither
declared nor connected. -/
theorem claimC8 :
    ((declsOf winWonOut).map Prod.snd).count 'W' = 1 ∧
    ((declsOf winWonOut).map Prod.snd).count 'I' = 1 ∧
    ((declsOf winWonOut).map Prod.snd).count 'O' = 1 ∧
    ((declsOf winWonOut).map Prod.snd).count 'N' = 2 ∧
    (declsOf winWonOut).length = 5 ∧
    (((declsOf winWonOut).filter (fun d => d.2 == 'N')).map Prod.fst).Nodup ∧
    (edgeLabels winWonOut).Perm
      [(some 'W', some 'I'), (some 'W', some 'O'), (some 'I', some 'N'),
        (some 'O', some 'N')] ∧
    (∀ e ∈ edgesOf winWonOut, (labelOf winWonOut e.1).isSome ∧
      (labelOf winWonOut e.2).isSome) := by decide
